import Mathlib

/-!
Verification of the routeza-cms bulk import / migration scripts.

JavaScript strings are modelled as `List Char`.  The definitions below are
shallow embeddings of the functions in `scripts/import-articles.mjs`,
`scripts/migrate-page-blocks-inplace.mjs`, the page importer and the
redirects importer of the repository.
-/

/-- `cs s` is the character list of a string literal (the model of a JS string). -/
def cs (s : String) : List Char := s.data

/-- The character class matched by the JS regex `\s` (WhiteSpace and
LineTerminator code points). -/
def jsWhitespace (c : Char) : Bool :=
  c == ' ' || c == '\t' || c == '\n' || c == '\u000B' || c == '\u000C' || c == '\r' ||
  c == '\u00A0' || c == '\u1680' || ('\u2000' ≤ c && c ≤ '\u200A') ||
  c == '\u2028' || c == '\u2029' || c == '\u202F' || c == '\u205F' ||
  c == '\u3000' || c == '\uFEFF'

/-- Remove the maximal trailing run of characters satisfying `p`
(the model of `String.prototype.trimEnd`, and of `replace(/\/+$/, "")`
with `p` the slash test). -/
def dropTrailing (p : Char → Bool) : List Char → List Char
  | [] => []
  | c :: rest =>
    match dropTrailing p rest with
    | [] => if p c then [] else [c]
    | r => c :: r

/-- Model of `String.prototype.trimEnd` (JS whitespace). -/
def jsTrimEnd (l : List Char) : List Char := dropTrailing jsWhitespace l

/-- Model of `String.prototype.trim` (JS whitespace at both ends). -/
def jsTrim (l : List Char) : List Char := jsTrimEnd (l.dropWhile jsWhitespace)

/-- Model of `String.prototype.split(sep)` for a single-character separator:
splits at every occurrence of `sep`, keeping empty segments. -/
def splitChar (sep : Char) : List Char → List (List Char)
  | [] => [[]]
  | c :: rest =>
    if c = sep then [] :: splitChar sep rest
    else
      match splitChar sep rest with
      | [] => [[c]]
      | s :: ss => (c :: s) :: ss

/-- Model of `str.split(/\n{2,}/)`: each maximal run of two or more
newlines separates segments; a single newline stays inside its segment. -/
def splitRuns : List Char → List (List Char)
  | [] => [[]]
  | c :: rest =>
    if c = '\n' ∧ rest.head? = some '\n' then
      [] :: splitRuns (rest.dropWhile fun d => d == '\n')
    else
      match splitRuns rest with
      | [] => [[c]]
      | s :: ss => (c :: s) :: ss
termination_by l => l.length
decreasing_by
  · have h : ∀ m : List Char, (m.dropWhile fun d => d == '\n').length ≤ m.length := by
      intro m
      induction m with
      | nil => simp [List.dropWhile]
      | cons a as ih =>
        by_cases ha : (a == '\n') = true
        · simp only [List.dropWhile, ha, List.length_cons]
          omega
        · simp [List.dropWhile, ha]
    have := h rest
    simp only [List.length_cons]
    omega
  · simp only [List.length_cons]
    omega

/-- `splitTextBlocks` from the migration scripts:
`String(content ?? "").split(/\n{2,}/).map(b => b.trim()).filter(Boolean)`. -/
def splitTextBlocks (content : List Char) : List (List Char) :=
  ((splitRuns content).map jsTrim).filter (fun b => !b.isEmpty)

/-- Collapse every maximal run of characters satisfying `p` into the single
character `r`; other characters pass through.  This is the model of the JS
global replaces `replace(\s+ -> " ")`, `replace(\s+ -> "-")` and
`replace(-+ -> "-")` of the scripts. -/
def collapseRunsBy (p : Char → Bool) (r : Char) : List Char → List Char
  | [] => []
  | c :: rest =>
    if p c then
      match rest with
      | [] => [r]
      | d :: _ => if p d then collapseRunsBy p r rest else r :: collapseRunsBy p r rest
    else c :: collapseRunsBy p r rest

/-- No two adjacent characters of the list both satisfy `p`. -/
def noRunB (p : Char → Bool) : List Char → Bool
  | [] => true
  | a :: l =>
    (match l.head? with
     | some b => !(p a && p b)
     | none => true) && noRunB p l

/-- The tagged content-block variants produced by `convertContentToBlocks`
(`page.section-heading`, `page.list`, `page.rich-text`). -/
inductive Block where
  | sectionHeading (text : List Char) (level : List Char)
  | list (listStyle : List Char) (itemsText : List Char)
  | richText (body : List Char)
deriving DecidableEq, Repr

/-- The heading level string computed from the marker count:
`depth === 1 ? "h1" : depth === 2 ? "h2" : depth === 3 ? "h3" : "h4"`. -/
def levelOf (depth : Nat) : List Char :=
  if depth = 1 then cs "h1" else if depth = 2 then cs "h2"
  else if depth = 3 then cs "h3" else cs "h4"

/-- Model of `block.match(/^(#{1,4})\s+([\s\S]+)$/)`: the marker-run length
(greedy `#{1,4}`, failing when a fifth `#` follows) paired with capture
group 2 (everything after the greedy `\s+`, which backtracks by at most one
character so that `[\s\S]+` is nonempty). -/
def headingMatch (block : List Char) : Option (Nat × List Char) :=
  let k := (block.takeWhile (fun c => c == '#')).length
  let rest := block.drop k
  let wsLen := (rest.takeWhile jsWhitespace).length
  if 1 ≤ k ∧ k ≤ 4 ∧ 1 ≤ wsLen ∧ 2 ≤ rest.length then
    some (k, rest.drop (min wsLen (rest.length - 1)))
  else none

/-- Test of the JS regex `/^[-*]\s+/` (bullet marker then whitespace). -/
def bulletTest (line : List Char) : Bool :=
  match line with
  | m :: w :: _ => (m == '-' || m == '*') && jsWhitespace w
  | _ => false

/-- Test of the JS regex `/^\d+\.\s+/` (digits, dot, whitespace). -/
def numTest (line : List Char) : Bool :=
  let ds := line.takeWhile Char.isDigit
  !ds.isEmpty &&
    match line.drop ds.length with
    | '.' :: w :: _ => jsWhitespace w
    | _ => false

/-- `line.replace(/^[-*]\s+/, "")`: strip a bullet marker and the following
whitespace run, if present. -/
def stripBullet (line : List Char) : List Char :=
  match line with
  | m :: w :: rest =>
    if (m == '-' || m == '*') && jsWhitespace w then (w :: rest).dropWhile jsWhitespace
    else line
  | _ => line

/-- `line.replace(/^\d+\.\s+/, "")`: strip a numeric marker and the following
whitespace run, if present. -/
def stripNum (line : List Char) : List Char :=
  let ds := line.takeWhile Char.isDigit
  if ds.isEmpty then line
  else
    match line.drop ds.length with
    | '.' :: w :: more =>
      if jsWhitespace w then (w :: more).dropWhile jsWhitespace else line
    | _ => line

/-- `normalizeListLines` from the migration scripts. -/
def normalizeListLines (lines : List (List Char)) : List (List Char) :=
  ((((lines.map jsTrim).filter (fun l => !l.isEmpty)).map
      (fun l => jsTrim (stripNum (stripBullet l)))).filter (fun l => !l.isEmpty))

/-- The loop body of `convertContentToBlocks`: classify one candidate block;
`none` models the branch that pushes nothing (a list block with no items). -/
def convertBlock (block : List Char) : Option Block :=
  match headingMatch block with
  | some (depth, g2) => some (.sectionHeading (jsTrim g2) (levelOf depth))
  | none =>
    let lines := ((splitChar '\n' block).map jsTrim).filter (fun l => !l.isEmpty)
    let isUnorderedList := !lines.isEmpty && lines.all bulletTest
    let isOrderedList := !lines.isEmpty && lines.all numTest
    if isUnorderedList || isOrderedList then
      let items := normalizeListLines lines
      if !items.isEmpty then
        some (.list (if isOrderedList then cs "ordered" else cs "unordered")
          (List.intercalate (cs "\n") (items.map (fun item => '-' :: ' ' :: item))))
      else none
    else some (.richText block)

/-- `convertContentToBlocks` from `migrate-page-blocks-inplace.mjs`. -/
def convertContentToBlocks (content : List Char) : List Block :=
  (splitTextBlocks content).filterMap convertBlock

/-! ### Record normalizer (`import-articles.mjs`) -/

/-- The canned padding sentence of `buildMetaDescription` (116 characters). -/
def metaPadding : List Char :=
  cs "Read the full article on Commute ZA for practical commuter insights and route-planning guidance across South Africa."

/-- `s.replace(\s+ -> " ").trim()`, the normalization applied at every step
of `buildMetaDescription`. -/
def collapseWs (l : List Char) : List Char := jsTrim (collapseRunsBy jsWhitespace ' ' l)

/-- The first two steps of `buildMetaDescription`: normalize the explicit
value, and append the fallback when the value is below the 120-character
minimum. -/
def metaCombined (value fallback : List Char) : List Char :=
  let text := collapseWs value
  let fallbackText := collapseWs fallback
  if text.length < 120 ∧ fallbackText ≠ [] then
    collapseWs (if text ≠ [] then text ++ ' ' :: fallbackText else fallbackText)
  else text

/-- The padding step of `buildMetaDescription`: append the canned sentence
once when still below the 120-character minimum. -/
def metaPadded (value fallback : List Char) : List Char :=
  let text := metaCombined value fallback
  if text.length < 120 then
    collapseWs (if text ≠ [] then text ++ ' ' :: metaPadding else metaPadding)
  else text

/-- `buildMetaDescription` from `import-articles.mjs`: combine, pad, then
truncate at 155 characters with `slice(0, 154).trimEnd() + "…"`. -/
def buildMetaDescription (value fallback : List Char) : List Char :=
  let text := metaPadded value fallback
  if text.length > 155 then jsTrimEnd (text.take 154) ++ ['…'] else text

/-- The character class kept by the slugify filter step
`replace([^a-z0-9\s-] -> "")`. -/
def isSlugKeep (c : Char) : Bool :=
  ('a' ≤ c && c ≤ 'z') || ('0' ≤ c && c ≤ '9') || jsWhitespace c || c == '-'

/-- The final slugify step `replace(^-|-$ -> "")`: remove one leading and one
trailing hyphen. -/
def stripEdgeHyphens (l : List Char) : List Char :=
  let l1 := if l.head? = some '-' then l.tail else l
  if l1.getLast? = some '-' then l1.dropLast else l1

/-- `slugify` from `import-articles.mjs`: trim, lowercase (ASCII case map),
strip characters outside `[a-z0-9\s-]`, turn whitespace runs into hyphens,
collapse hyphen runs, strip edge hyphens. -/
def slugify (v : List Char) : List Char :=
  stripEdgeHyphens (collapseRunsBy (fun c => c == '-') '-'
    (collapseRunsBy jsWhitespace '-' (((jsTrim v).map Char.toLower).filter isSlugKeep)))

/-- `normalizePath` from the page importer and the in-place migration:
empty and `/` map to `/`; otherwise ensure a leading slash and strip the
trailing slash run (`replace(\/+$ -> "")`). -/
def normalizePath (p : List Char) : List Char :=
  let trimmed := jsTrim p
  if trimmed = [] ∨ trimmed = ['/'] then ['/']
  else
    let withLeading := if trimmed.head? = some '/' then trimmed else '/' :: trimmed
    dropTrailing (fun c => c == '/') withLeading

/-! ### Redirect status mapping (redirects importer) -/

/-- A value that the JS expression `STATUS_MAP[normalized]` can produce:
one of the plain-object's own string values, an inherited member of
`Object.prototype` (a non-string function or object, named by the
property that reached it), or `undefined`. -/
inductive JsValue where
  | str (s : List Char)
  | protoValue (name : List Char)
  | notSet
deriving DecidableEq, Repr

/-- JS truthiness of such a value: the empty string and `undefined` are
falsy; every other string and every inherited function/object is truthy. -/
def jsTruthy : JsValue → Bool
  | .str s => !s.isEmpty
  | .protoValue _ => true
  | .notSet => false

/-- The `STATUS_MAP` lookup of the redirects importer (note the
`Redirecct-302` spelling from the source).  The source object is a plain
object literal, so bracket access falls through to `Object.prototype`:
the all-lowercase inherited property names `constructor` and `__proto__`
(the only ones reachable after `toLowerCase`) yield truthy non-string
values instead of `undefined`. -/
def STATUS_MAP (k : List Char) : JsValue :=
  if k = cs "301" then .str (cs "Redirect-301")
  else if k = cs "302" then .str (cs "Redirecct-302")
  else if k = cs "redirect-301" then .str (cs "Redirect-301")
  else if k = cs "redirecct-302" then .str (cs "Redirecct-302")
  else if k = cs "redirect-302" then .str (cs "Redirecct-302")
  else if k = cs "constructor" then .protoValue (cs "constructor")
  else if k = cs "__proto__" then .protoValue (cs "__proto__")
  else .notSet

/-- `toStatusCode` from the redirects importer:
`if (!value) return "Redirect-301"; return STATUS_MAP[normalized] || "Redirect-301"`. -/
def toStatusCode (v : List Char) : JsValue :=
  if v.isEmpty then .str (cs "Redirect-301")
  else
    let w := STATUS_MAP ((jsTrim v).map Char.toLower)
    if jsTruthy w then w else .str (cs "Redirect-301")

/-! ### Tabular parser (`parseCsv` from `import-articles.mjs`) -/

/-- The mutable state of the `parseCsv` character loop. -/
structure CsvState where
  records : List (List (List Char))
  recordLines : List Nat
  row : List (List Char)
  cell : List Char
  inQuotes : Bool
  line : Nat
  rowStartLine : Nat
deriving DecidableEq, Repr

def csvInit : CsvState := ⟨[], [], [], [], false, 1, 1⟩

/-- `cell += char`. -/
def csvAddChar (st : CsvState) (c : Char) : CsvState := { st with cell := st.cell ++ [c] }

/-- The `pushCell` closure. -/
def csvPushCell (st : CsvState) : CsvState := { st with row := st.row ++ [st.cell], cell := [] }

/-- The `pushRow` closure. -/
def csvPushRow (st : CsvState) : CsvState :=
  let st1 := csvPushCell st
  { st1 with
    records := st1.records ++ [st1.row]
    recordLines := st1.recordLines ++ [st1.rowStartLine]
    row := []
    rowStartLine := st1.line }

/-- `line += 1; rowStartLine = line`. -/
def csvBumpLine (st : CsvState) : CsvState :=
  { st with line := st.line + 1, rowStartLine := st.line + 1 }

/-- The character loop of `parseCsv`: quotes toggle/escape, commas split
cells, `\n`, `\r\n` and `\r` split rows — all only outside quotes. -/
def csvChars (st : CsvState) : List Char → CsvState
  | [] => st
  | '"' :: '"' :: rest =>
    if st.inQuotes then csvChars (csvAddChar st '"') rest
    else csvChars { st with inQuotes := !st.inQuotes } ('"' :: rest)
  | '"' :: rest => csvChars { st with inQuotes := !st.inQuotes } rest
  | ',' :: rest =>
    if st.inQuotes then csvChars (csvAddChar st ',') rest
    else csvChars (csvPushCell st) rest
  | '\r' :: '\n' :: rest =>
    if st.inQuotes then csvChars (csvAddChar st '\r') ('\n' :: rest)
    else csvChars (csvBumpLine (csvPushRow st)) rest
  | '\n' :: rest =>
    if st.inQuotes then csvChars (csvAddChar st '\n') rest
    else csvChars (csvBumpLine (csvPushRow st)) rest
  | '\r' :: rest =>
    if st.inQuotes then csvChars (csvAddChar st '\r') rest
    else csvChars (csvBumpLine (csvPushRow st)) rest
  | c :: rest => csvChars (csvAddChar st c) rest

/-- `text.charCodeAt(0) === 0xfeff ? text.slice(1) : text`. -/
def stripBom (l : List Char) : List Char :=
  match l with
  | c :: rest => if c = '\uFEFF' then rest else l
  | [] => []

/-- One parsed row: field assignments in header order plus the 1-based
source line where the record began. -/
structure CsvRow where
  fields : List (List Char × List Char)
  line : Nat
deriving DecidableEq, Repr

/-- JS object assignment `rowData[header] = value` on an assignment list:
overwrite an existing key, else append. -/
def setField : List (List Char × List Char) → List Char → List Char → List (List Char × List Char)
  | [], k, v => [(k, v)]
  | (k0, v0) :: rest, k, v =>
    if k0 = k then (k0, v) :: rest else (k0, v0) :: setField rest k v

/-- `headers.forEach((header, index) => rowData[header] = cells[index] ?? "")`. -/
def buildRowData (headers cells : List (List Char)) : List (List Char × List Char) :=
  (headers.enum).foldl (fun acc hi => setField acc hi.2 (cells.getD hi.1 [])) []

/-- `cells.some(v => String(v ?? "").trim() !== "")`. -/
def csvHasValue (cells : List (List Char)) : Bool :=
  cells.any (fun v => !(jsTrim v).isEmpty)

/-- The mapping loop of `parseCsv`: keep data records with any non-blank
cell, pair cells with headers, and attach `dataLines[i] ?? i + 2`. -/
def mapDataRows (headers : List (List Char)) :
    List (List (List Char)) → List Nat → Nat → List CsvRow
  | [], _, _ => []
  | cells :: rest, lns, i =>
    if csvHasValue cells then
      ⟨buildRowData headers cells, lns.headD (i + 2)⟩ :: mapDataRows headers rest lns.tail (i + 1)
    else mapDataRows headers rest lns.tail (i + 1)

/-- The scan state after the final-row flush
(`if (cell.length > 0 || row.length > 0) pushRow()`). -/
def csvFinalState (text : List Char) : CsvState :=
  let st := csvChars csvInit (stripBom text)
  if !st.cell.isEmpty || !st.row.isEmpty then csvPushRow st else st

/-- The row mappings `parseCsv` returns in the non-throwing case. -/
def csvRowsOf (text : List Char) : List CsvRow :=
  let st := csvFinalState text
  if st.records.length < 2 then []
  else mapDataRows ((st.records.headD []).map jsTrim) (st.records.drop 1) (st.recordLines.drop 1) 0

/-- `parseCsv` from `import-articles.mjs`; the `Except.error` value models the
`Invalid CSV: unmatched quote in input file.` throw. -/
def parseCsv (text : List Char) : Except Unit (List CsvRow) :=
  if (csvChars csvInit (stripBom text)).inQuotes then Except.error ()
  else Except.ok (csvRowsOf text)

/-- The number of data records (records after the header) with at least one
non-blank cell. -/
def csvDataCount (text : List Char) : Nat :=
  ((csvFinalState text).records.drop 1).countP csvHasValue

/-! ### Tabular parser of the redirects importer

The redirects importer carries its own, different `parseCsv`: it splits
the input into lines first (`split(\r?\n)`), trims and drops blank
lines, and parses each line independently with `parseCsvLine` — quoting
never spans lines and an unmatched quote never throws. -/

/-- Model of `text.split(\r?\n)`: `\n` and `\r\n` separate lines; a
lone `\r` is ordinary content. -/
def splitCrLf : List Char → List (List Char)
  | [] => [[]]
  | '\r' :: '\n' :: rest => [] :: splitCrLf rest
  | '\n' :: rest => [] :: splitCrLf rest
  | c :: rest =>
    match splitCrLf rest with
    | [] => [[c]]
    | s :: ss => (c :: s) :: ss

/-- The character loop of `parseCsvLine` from the redirects importer:
`current`, `inQuotes` and `cells` are the loop's mutable state; every
pushed cell is trimmed. -/
def parseCsvLineAux (inQ : Bool) (current : List Char) (cells : List (List Char)) :
    List Char → List (List Char)
  | [] => cells ++ [jsTrim current]
  | '"' :: '"' :: rest =>
    if inQ then parseCsvLineAux inQ (current ++ ['"']) cells rest
    else parseCsvLineAux (!inQ) current cells ('"' :: rest)
  | '"' :: rest => parseCsvLineAux (!inQ) current cells rest
  | ',' :: rest =>
    if inQ then parseCsvLineAux inQ (current ++ [',']) cells rest
    else parseCsvLineAux inQ [] (cells ++ [jsTrim current]) rest
  | c :: rest => parseCsvLineAux inQ (current ++ [c]) cells rest

/-- `parseCsvLine` from the redirects importer. -/
def parseCsvLine (line : List Char) : List (List Char) :=
  parseCsvLineAux false [] [] line

/-- The mapping loop of the redirects importer's `parseCsv`:
`row.__line = index + 2`, and every line becomes a row (no
all-blank-cell filter). -/
def redirectsRows (headers : List (List Char)) : List (List Char) → Nat → List CsvRow
  | [], _ => []
  | line :: rest, i =>
    ⟨buildRowData headers (parseCsvLine line), i + 2⟩ :: redirectsRows headers rest (i + 1)

/-- `parseCsv` from the redirects importer (`src/unnamed/part_005`,
lines 84-102).  Total by construction: it never reports an unmatched
quote. -/
def parseCsvRedirects (text : List Char) : List CsvRow :=
  let lines := ((splitCrLf text).map jsTrim).filter (fun l => !l.isEmpty)
  if lines.length < 2 then []
  else redirectsRows ((parseCsvLine (lines.headD [])).map jsTrim) (lines.drop 1) 0

/-! ### Batch runner model (`run` from `import-articles.mjs`)

Network interactions are modelled by an oracle giving each lookup's
response (`Except.error` models a non-success HTTP response, which the
script turns into a throw); write requests are recorded as `WriteOp`
values and are assumed to succeed.  Payload contents other than the
`schemaJson` failure do not influence control flow or counters and are
not tracked. -/

inductive UpsertMode where
  | update
  | skip
deriving DecidableEq, Repr

inductive Outcome where
  | created
  | updated
  | skipped
  | failed
deriving DecidableEq, Repr

structure Counters where
  created : Nat
  updated : Nat
  skipped : Nat
  failed : Nat
deriving DecidableEq, Repr

/-- One `+= 1` on the counter selected by the outcome. -/
def bump (c : Counters) : Outcome → Counters
  | .created => { c with created := c.created + 1 }
  | .updated => { c with updated := c.updated + 1 }
  | .skipped => { c with skipped := c.skipped + 1 }
  | .failed => { c with failed := c.failed + 1 }

/-- The counters reported by the final summary, as the sum of the recorded
per-row outcomes. -/
def countersOf : List Outcome → Counters
  | [] => ⟨0, 0, 0, 0⟩
  | o :: rest => bump (countersOf rest) o

/-- A remote record as the script sees it: optional `documentId` and
optional numeric `id`. -/
structure Entry where
  documentId : Option (List Char)
  id : Option Nat
deriving DecidableEq, Repr

/-- `getEntryId(entry) = entry?.documentId ?? entry?.id ?? null`. -/
def getEntryId (e : Entry) : Option (List Char ⊕ Nat) :=
  match e.documentId with
  | some d => some (Sum.inl d)
  | none => e.id.map Sum.inr

/-- The JS falsiness test `!entryId` applied to a resolved identifier. -/
def entryIdFalsy : List Char ⊕ Nat → Bool
  | .inl d => d.isEmpty
  | .inr n => n == 0

/-- A mutating remote call: tag create POST, entry create POST, entry
update PUT. -/
inductive WriteOp where
  | postTag (slug : List Char)
  | post (slug : List Char)
  | put (id : List Char ⊕ Nat) (slug : List Char)
deriving DecidableEq, Repr

/-- The remote responses: `tagFind s` answers the tag lookup by slug
(whether a tag exists), `find s` answers `findExistingBySlug`. -/
structure Oracle where
  tagFind : List Char → Except Unit Bool
  find : List Char → Except Unit (Option Entry)

/-- One input row, reduced to the fields the run loop inspects:
raw title and slug, the parsed tag-name list, and whether
`safeJson(row.schemaJson)` would throw. -/
structure ArticleRow where
  title : List Char
  slug : List Char
  tags : List (List Char)
  schemaJsonBad : Bool
deriving DecidableEq, Repr

/-- `ensureTagIds`: look each slugified tag name up; create the tag when it
is missing and the run is live.  Returns the issued writes and `error` when
a lookup fails (the resolved ids only feed the payload and are not
tracked). -/
def ensureTagIds (dry : Bool) (o : Oracle) : List (List Char) → List WriteOp × Except Unit Unit
  | [] => ([], Except.ok ())
  | nameRaw :: rest =>
    let name := jsTrim nameRaw
    if name.isEmpty then ensureTagIds dry o rest
    else if (slugify name).isEmpty then ensureTagIds dry o rest
    else
      match o.tagFind (slugify name) with
      | .error _ => ([], Except.error ())
      | .ok found =>
        let r := ensureTagIds dry o rest
        if !found && !dry then (WriteOp.postTag (slugify name) :: r.1, r.2) else r

/-- The body of the per-row loop of `run`, including the surrounding
try/catch: the result is the row's terminal outcome, the updated
`seenSlugs` set, and the writes issued for the row. -/
def processRow (dry : Bool) (mode : UpsertMode) (o : Oracle) (seen : List (List Char))
    (row : ArticleRow) : Outcome × List (List Char) × List WriteOp :=
  let title := jsTrim row.title
  let slug := if (jsTrim row.slug).isEmpty then slugify title else jsTrim row.slug
  if title.isEmpty || slug.isEmpty then (.failed, seen, [])
  else if seen.contains slug then (.failed, seen, [])
  else
    let seen2 := slug :: seen
    let tags := ensureTagIds dry o row.tags
    match tags.2 with
    | .error _ => (.failed, seen2, tags.1)
    | .ok _ =>
      if row.schemaJsonBad then (.failed, seen2, tags.1)
      else
        match o.find slug with
        | .error _ => (.failed, seen2, tags.1)
        | .ok none => (.created, seen2, tags.1 ++ (if dry then [] else [WriteOp.post slug]))
        | .ok (some e) =>
          match mode with
          | .skip => (.skipped, seen2, tags.1)
          | .update =>
            match getEntryId e with
            | none => (.failed, seen2, tags.1)
            | some eid =>
              if entryIdFalsy eid then (.failed, seen2, tags.1)
              else (.updated, seen2, tags.1 ++ (if dry then [] else [WriteOp.put eid slug]))

/-- The whole row loop of `run`: per-row outcomes in input order and all
issued writes. -/
def runSteps (dry : Bool) (mode : UpsertMode) (o : Oracle) :
    List ArticleRow → List (List Char) → List Outcome × List WriteOp
  | [], _ => ([], [])
  | row :: rest, seen =>
    let r := processRow dry mode o seen row
    let rs := runSteps dry mode o rest r.2.1
    (r.1 :: rs.1, r.2.2 ++ rs.2)

/-- The `seenSlugs` set after processing a row list. -/
def seenAfter (dry : Bool) (mode : UpsertMode) (o : Oracle) :
    List ArticleRow → List (List Char) → List (List Char)
  | [], seen => seen
  | row :: rest, seen => seenAfter dry mode o rest (processRow dry mode o seen row).2.1

/-- The natural key a row resolves to:
`String(row.slug ?? "").trim() || slugify(title)`. -/
def rowSlug (row : ArticleRow) : List Char :=
  if (jsTrim row.slug).isEmpty then slugify (jsTrim row.title) else jsTrim row.slug

/-- The required-fields validation of the loop: nonempty trimmed title and
nonempty resolved slug. -/
def validRow (row : ArticleRow) : Prop :=
  jsTrim row.title ≠ [] ∧ rowSlug row ≠ []

/-- An oracle for concrete runs: no tags exist, no articles exist, all
lookups succeed. -/
def oracleEmpty : Oracle :=
  ⟨fun _ => Except.ok false, fun _ => Except.ok none⟩

/-! ### Spec-side definitions -/

/-- The JS LineTerminator class (what `.` does not match). -/
def lineTerminator (c : Char) : Bool :=
  c == '\n' || c == '\r' || c == '\u2028' || c == '\u2029'

/-- Modelled from the spec: test of the regex `^(#{1,4})\s+(.+)$` named by
the heading-classification sentence, with JS semantics (`.` excludes line
terminators).  The `\s+` may backtrack, so the suffix after the largest
admissible whitespace take decides the match. -/
def specHeadingTest (block : List Char) : Bool :=
  let k := (block.takeWhile (fun c => c == '#')).length
  let rest := block.drop k
  let wsLen := (rest.takeWhile jsWhitespace).length
  decide (1 ≤ k) && decide (k ≤ 4) && decide (1 ≤ wsLen) && decide (2 ≤ rest.length) &&
    (rest.drop (min wsLen (rest.length - 1))).all (fun c => !lineTerminator c)

/-! ### Lemmas about the heading classifier -/

theorem drop_length_takeWhile (p : Char → Bool) :
    ∀ l : List Char, l.drop ((l.takeWhile p).length) = l.dropWhile p := by
  intro l
  induction l with
  | nil => simp
  | cons c rest ih =>
    by_cases hc : p c
    · simp only [List.takeWhile_cons, hc, if_true, List.dropWhile_cons, List.length_cons,
        List.drop_succ_cons]
      exact ih
    · simp [List.takeWhile_cons, List.dropWhile_cons, hc]

theorem ws_not_hash {w : Char} (hw : jsWhitespace w = true) : (w == '#') = false := by
  by_cases h : w = '#'
  · subst h
    simp [jsWhitespace] at hw
  · simp [h]

theorem takeWhile_replicate_cons (k : Nat) (w : Char) (tl : List Char)
    (hw : (w == '#') = false) :
    (List.replicate k '#' ++ w :: tl).takeWhile (fun c => c == '#') = List.replicate k '#' := by
  induction k with
  | zero => simp [List.takeWhile_cons, hw]
  | succ n ih => simp [List.replicate_succ, List.takeWhile_cons, ih]

theorem takeWhile_hash_replicate (l : List Char) :
    l.takeWhile (fun c => c == '#') =
      List.replicate (l.takeWhile (fun c => c == '#')).length '#' := by
  rw [List.eq_replicate_iff]
  refine ⟨rfl, fun b hb => ?_⟩
  have := List.mem_takeWhile_imp hb
  simpa using this

theorem headingMatch_shape (k : Nat) (w : Char) (tl : List Char)
    (hk1 : 1 ≤ k) (hk4 : k ≤ 4) (hw : jsWhitespace w = true) (htl : tl ≠ []) :
    headingMatch (List.replicate k '#' ++ w :: tl) =
      some (k, (w :: tl).drop (min ((w :: tl).takeWhile jsWhitespace).length tl.length)) := by
  have hwh : (w == '#') = false := ws_not_hash hw
  have hrep := takeWhile_replicate_cons k w tl hwh
  have hdrop : (List.replicate k '#' ++ w :: tl).drop k = w :: tl := by
    have := List.drop_left (List.replicate k '#') (w :: tl)
    rwa [List.length_replicate] at this
  simp only [headingMatch, hrep, List.length_replicate, hdrop]
  have hws : (w :: tl).takeWhile jsWhitespace = w :: tl.takeWhile jsWhitespace := by
    simp [List.takeWhile_cons, hw]
  have h3 : 1 ≤ ((w :: tl).takeWhile jsWhitespace).length := by
    rw [hws]
    simp
  have h4 : 2 ≤ (w :: tl).length := by
    have : 0 < tl.length := List.length_pos.mpr htl
    simp only [List.length_cons]
    omega
  rw [if_pos ⟨hk1, hk4, h3, h4⟩]
  simp

theorem headingMatch_some {b : List Char} {k : Nat} {g : List Char}
    (h : headingMatch b = some (k, g)) :
    ∃ w tl, 1 ≤ k ∧ k ≤ 4 ∧ jsWhitespace w = true ∧ tl ≠ [] ∧
      b = List.replicate k '#' ++ w :: tl ∧
      g = (w :: tl).drop (min ((w :: tl).takeWhile jsWhitespace).length tl.length) := by
  simp only [headingMatch] at h
  split at h
  case isTrue hc =>
    obtain ⟨hk1, hk4, hws, hlen⟩ := hc
    obtain ⟨hkk, hgg⟩ : (b.takeWhile (fun c => c == '#')).length = k ∧
        (b.drop (b.takeWhile (fun c => c == '#')).length).drop
          (min ((b.drop (b.takeWhile (fun c => c == '#')).length).takeWhile jsWhitespace).length
            ((b.drop (b.takeWhile (fun c => c == '#')).length).length - 1)) = g := by
      have := h
      simp only [Option.some.injEq, Prod.mk.injEq] at this
      exact this
    subst hkk
    rw [drop_length_takeWhile] at hws hlen hgg
    cases hrest : b.dropWhile (fun c => c == '#') with
    | nil =>
      rw [hrest] at hws
      simp at hws
    | cons w tl =>
      rw [hrest] at hws hlen hgg
      have hw : jsWhitespace w = true := by
        by_contra hcon
        rw [List.takeWhile_cons] at hws
        simp only [Bool.not_eq_true] at hcon
        rw [hcon] at hws
        simp at hws
      have htl : tl ≠ [] := by
        intro hnil
        rw [hnil] at hlen
        simp at hlen
      refine ⟨w, tl, hk1, hk4, hw, htl, ?_, ?_⟩
      · conv_lhs => rw [← List.takeWhile_append_dropWhile (p := fun c => c == '#') (l := b)]
        rw [takeWhile_hash_replicate b, hrest]
        simp
      · rw [← hgg]
        simp
  case isFalse => exact absurd h (by simp)

/-! ### Claim C1 -/

/-- C1: the block converter is deterministic and pure — the ordered block
sequence produced by `convertContentToBlocks` is a function of the input
text alone, so equal input texts always yield byte-identical block
sequences. -/
theorem convert_deterministic (t1 t2 : List Char) (h : t1 = t2) :
    convertContentToBlocks t1 = convertContentToBlocks t2 := by rw [h]

theorem convert_deterministic_witness :
    cs "# T\n\nbody" = cs "# T\n\nbody" ∧
    convertContentToBlocks (cs "# T\n\nbody") = convertContentToBlocks (cs "# T\n\nbody") :=
  ⟨rfl, convert_deterministic _ _ rfl⟩

/-! ### Claim C2 -/

/-- C2 counterexample: the block `"# a\nb"` does not match the claimed
regex `^(#{1,4})\s+(.+)$` (JS `.` does not cross the newline), yet the
converter classifies it as an `h1` heading, because the source regex uses
`[\s\S]+` for the text part. -/
theorem heading_regex_counterexample :
    specHeadingTest (cs "# a\nb") = false ∧
    convertContentToBlocks (cs "# a\nb") = [Block.sectionHeading (cs "a\nb") (cs "h1")] := by
  constructor
  · decide
  · have h : splitTextBlocks (cs "# a\nb") = [cs "# a\nb"] := by
      simp [splitTextBlocks, splitRuns, cs, jsTrim, jsTrimEnd, dropTrailing, jsWhitespace,
        List.dropWhile]
    rw [convertContentToBlocks, h]
    decide

/-- C2 (amended): a candidate block becomes a heading block exactly when it
matches `^(#{1,4})\s+([\s\S]+)$` — one to four marker characters followed
by whitespace and at least one further character, where the text part may
span newlines; marker counts 1/2/3/4 map to levels h1/h2/h3/h4 (five or
more markers do not match at all), and the heading text is the text after
the markers with surrounding whitespace trimmed. -/
theorem heading_classification :
    (∀ (k : Nat) (w : Char) (tl : List Char), 1 ≤ k → k ≤ 4 → jsWhitespace w = true → tl ≠ [] →
      convertBlock (List.replicate k '#' ++ w :: tl) =
        some (Block.sectionHeading
          (jsTrim ((w :: tl).drop (min ((w :: tl).takeWhile jsWhitespace).length tl.length)))
          (levelOf k))) ∧
    (∀ (b t l : List Char), convertBlock b = some (Block.sectionHeading t l) →
      ∃ k w tl, 1 ≤ k ∧ k ≤ 4 ∧ jsWhitespace w = true ∧ tl ≠ [] ∧
        b = List.replicate k '#' ++ w :: tl ∧ l = levelOf k ∧
        t = jsTrim ((w :: tl).drop (min ((w :: tl).takeWhile jsWhitespace).length tl.length))) := by
  constructor
  · intro k w tl hk1 hk4 hw htl
    rw [convertBlock, headingMatch_shape k w tl hk1 hk4 hw htl]
  · intro b t l h
    cases hm : headingMatch b with
    | none =>
      rw [convertBlock, hm] at h
      simp only [] at h
      split at h
      · split at h
        · simp at h
        · simp at h
      · simp at h
    | some v =>
      obtain ⟨d, g⟩ := v
      rw [convertBlock, hm] at h
      simp only [Option.some.injEq, Block.sectionHeading.injEq] at h
      obtain ⟨ht, hl⟩ := h
      obtain ⟨w, tl, hk1, hk4, hw, htl, hb, hg⟩ := headingMatch_some hm
      exact ⟨d, w, tl, hk1, hk4, hw, htl, hb, hl.symm, by rw [← ht, hg]⟩

theorem heading_classification_witness :
    1 ≤ 2 ∧ 2 ≤ 4 ∧ jsWhitespace ' ' = true ∧ cs "T" ≠ [] ∧
    convertBlock (List.replicate 2 '#' ++ ' ' :: cs "T") =
      some (Block.sectionHeading
        (jsTrim ((' ' :: cs "T").drop
          (min ((' ' :: cs "T").takeWhile jsWhitespace).length (cs "T").length)))
        (levelOf 2)) :=
  ⟨by decide, by decide, by decide, by decide,
    heading_classification.1 2 ' ' (cs "T") (by decide) (by decide) (by decide) (by decide)⟩

/-! ### Claim C3 -/

/-- C3: the text `"# Title\n\nSome body text.\n\n- a\n- b"` converts to
exactly three blocks: an h1 section heading `"Title"`, a rich-text block
`"Some body text."`, and an unordered list whose items `a` and `b` are
re-joined as `"- a\n- b"`. -/
theorem scenario_c :
    convertContentToBlocks (cs "# Title\n\nSome body text.\n\n- a\n- b") =
      [Block.sectionHeading (cs "Title") (cs "h1"),
       Block.richText (cs "Some body text."),
       Block.list (cs "unordered") (cs "- a\n- b")] := by
  have h : splitTextBlocks (cs "# Title\n\nSome body text.\n\n- a\n- b") =
      [cs "# Title", cs "Some body text.", cs "- a\n- b"] := by
    simp [splitTextBlocks, splitRuns, cs, jsTrim, jsTrimEnd, dropTrailing, jsWhitespace,
      List.dropWhile]
  rw [convertContentToBlocks, h]
  decide

/-! ### Claim C10 -/

/-- C10 counterexample: on input `constructor`, the property access
`STATUS_MAP["constructor"]` reaches the inherited `Object.prototype`
member, which is truthy, so `toStatusCode` returns that non-string value
— neither of the two claimed enumeration values. -/
theorem toStatusCode_counterexample :
    toStatusCode (cs "constructor") = JsValue.protoValue (cs "constructor") ∧
    toStatusCode (cs "constructor") ≠ JsValue.str (cs "Redirect-301") ∧
    toStatusCode (cs "constructor") ≠ JsValue.str (cs "Redirecct-302") := by
  decide

/-- C10 (amended): `toStatusCode` is total; except for the two inputs
normalizing to the `Object.prototype` property names `constructor` and
`__proto__` — where the plain-object lookup leaks the inherited truthy
member — the result is one of the two enumeration values: the recognized
302 spellings map to `Redirecct-302` and every other input, empty and
unrecognized strings included, maps to the default `Redirect-301`. -/
theorem toStatusCode_enum (v : List Char) :
    toStatusCode v =
      (if (jsTrim v).map Char.toLower = cs "constructor" ∨
          (jsTrim v).map Char.toLower = cs "__proto__"
       then JsValue.protoValue ((jsTrim v).map Char.toLower)
       else if (jsTrim v).map Char.toLower = cs "302" ∨
          (jsTrim v).map Char.toLower = cs "redirecct-302" ∨
          (jsTrim v).map Char.toLower = cs "redirect-302"
       then JsValue.str (cs "Redirecct-302")
       else JsValue.str (cs "Redirect-301")) := by
  by_cases hv : v.isEmpty = true
  · have hnil : v = [] := by cases v <;> simp_all
    subst hnil
    decide
  · simp only [toStatusCode, STATUS_MAP]
    rw [if_neg hv]
    by_cases h1 : (jsTrim v).map Char.toLower = cs "301"
    · rw [h1]
      decide
    · by_cases h2 : (jsTrim v).map Char.toLower = cs "302"
      · rw [h2]
        decide
      · by_cases h3 : (jsTrim v).map Char.toLower = cs "redirect-301"
        · rw [h3]
          decide
        · by_cases h4 : (jsTrim v).map Char.toLower = cs "redirecct-302"
          · rw [h4]
            decide
          · by_cases h5 : (jsTrim v).map Char.toLower = cs "redirect-302"
            · rw [h5]
              decide
            · by_cases h6 : (jsTrim v).map Char.toLower = cs "constructor"
              · rw [h6]
                decide
              · by_cases h7 : (jsTrim v).map Char.toLower = cs "__proto__"
                · rw [h7]
                  decide
                · rw [if_neg h1, if_neg h2, if_neg h3, if_neg h4, if_neg h5, if_neg h6,
                    if_neg h7, if_neg (by decide), if_neg (by push_neg; exact ⟨h6, h7⟩),
                    if_neg (by push_neg; exact ⟨h2, h4, h5⟩)]

/-! ### Lemmas about `dropTrailing`, `dropWhile` and `collapseRunsBy` -/

theorem dropTrailing_getLast (p : Char → Bool) :
    ∀ l c, (dropTrailing p l).getLast? = some c → p c = false := by
  intro l
  induction l with
  | nil => intro c hc; simp [dropTrailing] at hc
  | cons a rest ih =>
    intro c hc
    rw [dropTrailing] at hc
    cases hr : dropTrailing p rest with
    | nil =>
      rw [hr] at hc
      by_cases hpa : p a = true
      · simp [hpa] at hc
      · simp only [hpa, Bool.false_eq_true, if_false] at hc
        simp only [List.getLast?_singleton, Option.some.injEq] at hc
        subst hc
        simpa using hpa
    | cons b bs =>
      rw [hr] at hc
      simp only [List.getLast?_cons_cons] at hc
      exact ih c (hr ▸ hc)

theorem dropTrailing_head (p : Char → Bool) :
    ∀ l, dropTrailing p l = [] ∨ (dropTrailing p l).head? = l.head? := by
  intro l
  induction l with
  | nil => left; rfl
  | cons a rest _ =>
    rw [dropTrailing]
    cases hr : dropTrailing p rest with
    | nil =>
      by_cases hpa : p a = true
      · left; simp [hpa]
      · right; simp [hpa]
    | cons b bs => right; rfl

theorem dropTrailing_ne_nil (p : Char → Bool) :
    ∀ l, (∃ c ∈ l, p c = false) → dropTrailing p l ≠ [] := by
  intro l
  induction l with
  | nil => rintro ⟨c, hc, _⟩; simp at hc
  | cons a rest ih =>
    rintro ⟨c, hc, hpc⟩
    rw [dropTrailing]
    cases hr : dropTrailing p rest with
    | nil =>
      have hca : c = a := by
        rcases List.mem_cons.mp hc with h | h
        · exact h
        · exact absurd (ih ⟨c, h, hpc⟩) (by simp [hr])
      subst hca
      simp [hpc]
    | cons b bs => simp

theorem dropTrailing_length_le (p : Char → Bool) :
    ∀ l, (dropTrailing p l).length ≤ l.length := by
  intro l
  induction l with
  | nil => simp [dropTrailing]
  | cons a rest ih =>
    rw [dropTrailing]
    cases hr : dropTrailing p rest with
    | nil =>
      by_cases hpa : p a = true <;> simp [hpa]
    | cons b bs =>
      rw [hr] at ih
      simp only [List.length_cons] at ih ⊢
      omega

theorem dropTrailing_eq_nil (p : Char → Bool) :
    ∀ l, dropTrailing p l = [] → ∀ c ∈ l, p c = true := by
  intro l
  induction l with
  | nil => intro _ c hc; simp at hc
  | cons a rest ih =>
    intro hnil c hc
    rw [dropTrailing] at hnil
    cases hr : dropTrailing p rest with
    | nil =>
      rw [hr] at hnil
      by_cases hpa : p a = true
      · rcases List.mem_cons.mp hc with h | h
        · exact h ▸ hpa
        · exact ih hr c h
      · simp [hpa] at hnil
    | cons b bs => simp [hr] at hnil

theorem dropTrailing_eq_self (p : Char → Bool) :
    ∀ l c, l.getLast? = some c → p c = false → dropTrailing p l = l := by
  intro l
  induction l with
  | nil => intro c hc _; simp at hc
  | cons a rest ih =>
    intro c hc hpc
    cases hrest : rest with
    | nil =>
      subst hrest
      simp only [List.getLast?_singleton, Option.some.injEq] at hc
      subst hc
      simp [dropTrailing, hpc]
    | cons b bs =>
      subst hrest
      rw [List.getLast?_cons_cons] at hc
      have hr := ih c hc hpc
      rw [dropTrailing, hr]

theorem mem_dropTrailing (p : Char → Bool) :
    ∀ l c, c ∈ dropTrailing p l → c ∈ l := by
  intro l
  induction l with
  | nil => intro c hc; simp [dropTrailing] at hc
  | cons a rest ih =>
    intro c hc
    rw [dropTrailing] at hc
    cases hr : dropTrailing p rest with
    | nil =>
      rw [hr] at hc
      by_cases hpa : p a = true
      · simp [hpa] at hc
      · simp only [hpa, Bool.false_eq_true, if_false, List.mem_singleton] at hc
        simp [hc]
    | cons b bs =>
      rw [hr] at hc
      rcases List.mem_cons.mp hc with h | h
      · simp [h]
      · exact List.mem_cons_of_mem a (ih c (hr ▸ h))

theorem dropWhile_head_false (p : Char → Bool) :
    ∀ (l : List Char) (h : Char), (l.dropWhile p).head? = some h → p h = false := by
  intro l
  induction l with
  | nil => intro h hh; simp at hh
  | cons a rest ih =>
    intro h hh
    by_cases hpa : p a = true
    · rw [List.dropWhile_cons, if_pos hpa] at hh
      exact ih h hh
    · rw [List.dropWhile_cons, if_neg hpa] at hh
      simp only [List.head?_cons, Option.some.injEq] at hh
      subst hh
      simpa using hpa

theorem noRunB_nil (p : Char → Bool) : noRunB p [] = true := rfl

theorem noRunB_singleton (p : Char → Bool) (a : Char) : noRunB p [a] = true := rfl

theorem noRunB_cons_cons (p : Char → Bool) (a b : Char) (l : List Char) :
    noRunB p (a :: b :: l) = (!(p a && p b) && noRunB p (b :: l)) := rfl

theorem collapseRunsBy_nil (p : Char → Bool) (r : Char) : collapseRunsBy p r [] = [] := rfl

theorem collapseRunsBy_singleton (p : Char → Bool) (r c : Char) :
    collapseRunsBy p r [c] = if p c then [r] else [c] := by
  by_cases hp : p c = true <;> simp [collapseRunsBy, hp]

theorem collapseRunsBy_cons_cons (p : Char → Bool) (r c d : Char) (ds : List Char) :
    collapseRunsBy p r (c :: d :: ds) =
      if p c then
        (if p d then collapseRunsBy p r (d :: ds) else r :: collapseRunsBy p r (d :: ds))
      else c :: collapseRunsBy p r (d :: ds) := rfl

theorem noRunB_tail (p : Char → Bool) (a : Char) (l : List Char)
    (h : noRunB p (a :: l) = true) : noRunB p l = true := by
  cases l with
  | nil => rfl
  | cons b bs =>
    rw [noRunB_cons_cons, Bool.and_eq_true] at h
    exact h.2

theorem noRunB_pair (p : Char → Bool) (a b : Char) (l : List Char)
    (h : noRunB p (a :: b :: l) = true) : (p a && p b) = false := by
  rw [noRunB_cons_cons, Bool.and_eq_true] at h
  have h1 := h.1
  cases hab : (p a && p b) with
  | false => rfl
  | true => rw [hab] at h1; simp at h1

theorem noRunB_cons_cons_intro (p : Char → Bool) {a b : Char} {l : List Char}
    (h1 : (p a && p b) = false) (h2 : noRunB p (b :: l) = true) :
    noRunB p (a :: b :: l) = true := by
  rw [noRunB_cons_cons]
  simp [h1, h2]

theorem noRunB_cons_head_false (p : Char → Bool) {a : Char} {l : List Char}
    (hpa : p a = false) (h : noRunB p l = true) : noRunB p (a :: l) = true := by
  cases l with
  | nil => rfl
  | cons b bs =>
    rw [noRunB_cons_cons]
    simp [hpa, h]

theorem mem_collapseRunsBy (p : Char → Bool) (r : Char) :
    ∀ l c, c ∈ collapseRunsBy p r l → c = r ∨ (c ∈ l ∧ p c = false) := by
  intro l
  induction l with
  | nil => intro c hc; simp [collapseRunsBy_nil] at hc
  | cons a rest ih =>
    intro c hc
    cases hrest : rest with
    | nil =>
      subst hrest
      rw [collapseRunsBy_singleton] at hc
      by_cases hpa : p a = true
      · rw [if_pos hpa] at hc
        simp only [List.mem_singleton] at hc
        exact Or.inl hc
      · rw [if_neg hpa] at hc
        simp only [List.mem_singleton] at hc
        exact Or.inr ⟨by simp [hc], by simpa [hc] using hpa⟩
    | cons d ds =>
      subst hrest
      rw [collapseRunsBy_cons_cons] at hc
      by_cases hpa : p a = true
      · rw [if_pos hpa] at hc
        by_cases hpd : p d = true
        · rw [if_pos hpd] at hc
          rcases ih c hc with h | ⟨hm, hp⟩
          · exact Or.inl h
          · exact Or.inr ⟨List.mem_cons_of_mem a hm, hp⟩
        · rw [if_neg hpd] at hc
          rcases List.mem_cons.mp hc with h | h
          · exact Or.inl h
          · rcases ih c h with h2 | ⟨hm, hp⟩
            · exact Or.inl h2
            · exact Or.inr ⟨List.mem_cons_of_mem a hm, hp⟩
      · rw [if_neg hpa] at hc
        rcases List.mem_cons.mp hc with h | h
        · subst h
          exact Or.inr ⟨List.mem_cons_self c (d :: ds), by simpa using hpa⟩
        · rcases ih c h with h2 | ⟨hm, hp⟩
          · exact Or.inl h2
          · exact Or.inr ⟨List.mem_cons_of_mem a hm, hp⟩

theorem collapseRunsBy_cons_false (p : Char → Bool) (r : Char) {d : Char} (ds : List Char)
    (hpd : p d = false) : collapseRunsBy p r (d :: ds) = d :: collapseRunsBy p r ds := by
  cases ds with
  | nil => rw [collapseRunsBy_singleton, if_neg (by simp [hpd]), collapseRunsBy_nil]
  | cons e es => rw [collapseRunsBy_cons_cons, if_neg (by simp [hpd])]

theorem collapseRunsBy_noRun (p : Char → Bool) (r : Char) :
    ∀ l, noRunB p (collapseRunsBy p r l) = true := by
  intro l
  induction l with
  | nil => rfl
  | cons a rest ih =>
    cases hrest : rest with
    | nil =>
      rw [collapseRunsBy_singleton]
      by_cases hpa : p a = true
      · rw [if_pos hpa]; exact noRunB_singleton p r
      · rw [if_neg hpa]; exact noRunB_singleton p a
    | cons d ds =>
      subst hrest
      rw [collapseRunsBy_cons_cons]
      by_cases hpa : p a = true
      · rw [if_pos hpa]
        by_cases hpd : p d = true
        · rw [if_pos hpd]
          exact ih
        · rw [if_neg hpd]
          have hcr : collapseRunsBy p r (d :: ds) = d :: collapseRunsBy p r ds :=
            collapseRunsBy_cons_false p r ds (by simpa using hpd)
          rw [hcr]
          apply noRunB_cons_cons_intro
          · simp [by simpa using hpd]
          · rw [← hcr]
            exact ih
      · rw [if_neg hpa]
        exact noRunB_cons_head_false p (by simpa using hpa) ih

theorem collapseRunsBy_eq_self (p : Char → Bool) (r : Char) :
    ∀ l, (∀ c ∈ l, p c = true → c = r) → noRunB p l = true → collapseRunsBy p r l = l := by
  intro l
  induction l with
  | nil => intro _ _; rfl
  | cons a rest ih =>
    intro hall hnr
    cases hrest : rest with
    | nil =>
      rw [collapseRunsBy_singleton]
      by_cases hpa : p a = true
      · rw [if_pos hpa, hall a (List.mem_cons_self a rest) hpa]
      · rw [if_neg hpa]
    | cons d ds =>
      subst hrest
      rw [collapseRunsBy_cons_cons]
      have hrec : collapseRunsBy p r (d :: ds) = d :: ds :=
        ih (fun c hc hpc => hall c (List.mem_cons_of_mem a hc) hpc) (noRunB_tail p a (d :: ds) hnr)
      by_cases hpa : p a = true
      · rw [if_pos hpa]
        have har : a = r := hall a (List.mem_cons_self a (d :: ds)) hpa
        have hpd : p d = false := by
          have hp := noRunB_pair p a d ds hnr
          rcases Bool.and_eq_false_iff.mp hp with h | h
          · rw [hpa] at h; exact absurd h (by simp)
          · exact h
        rw [if_neg (by simp [hpd]), hrec, har]
      · rw [if_neg hpa, hrec]

theorem noRunB_dropWhile (p q : Char → Bool) :
    ∀ l, noRunB p l = true → noRunB p (l.dropWhile q) = true := by
  intro l
  induction l with
  | nil => intro h; simpa using h
  | cons a rest ih =>
    intro h
    by_cases hq : q a = true
    · rw [List.dropWhile_cons, if_pos hq]
      exact ih (noRunB_tail p a rest h)
    · rw [List.dropWhile_cons, if_neg hq]
      exact h

theorem noRunB_dropTrailing (p q : Char → Bool) :
    ∀ l, noRunB p l = true → noRunB p (dropTrailing q l) = true := by
  intro l
  induction l with
  | nil => intro h; simpa [dropTrailing] using h
  | cons a rest ih =>
    intro h
    rw [dropTrailing]
    cases hr : dropTrailing q rest with
    | nil =>
      by_cases hqa : q a = true
      · simp [hqa, noRunB_nil]
      · simp [hqa, noRunB_singleton]
    | cons b bs =>
      rcases dropTrailing_head q rest with h0 | h0
      · rw [h0] at hr; exact absurd hr (by simp)
      · rw [hr] at h0
        cases hrest : rest with
        | nil => rw [hrest] at h0; simp at h0
        | cons x xs =>
          rw [hrest] at h0
          simp only [List.head?_cons, Option.some.injEq] at h0
          subst h0
          apply noRunB_cons_cons_intro
          · exact noRunB_pair p a b xs (hrest ▸ h)
          · rw [← hr]
            exact ih (noRunB_tail p a rest h)

theorem noRunB_take (p : Char → Bool) :
    ∀ (l : List Char) (n : Nat), noRunB p l = true → noRunB p (l.take n) = true := by
  intro l
  induction l with
  | nil => intro n h; simpa using h
  | cons a rest ih =>
    intro n h
    cases n with
    | zero => exact noRunB_nil p
    | succ m =>
      rw [List.take_succ_cons]
      cases hrest : rest with
      | nil => simp [noRunB_singleton]
      | cons b bs =>
        cases m with
        | zero => simp [noRunB_singleton]
        | succ m2 =>
          rw [List.take_succ_cons]
          apply noRunB_cons_cons_intro
          · exact noRunB_pair p a b bs (hrest ▸ h)
          · have := ih (m2 + 1) (noRunB_tail p a rest h)
            rw [hrest] at this
            rw [List.take_succ_cons] at this
            exact this

theorem noRunB_append (p : Char → Bool) :
    ∀ l1 l2, noRunB p l1 = true → noRunB p l2 = true →
      (∀ a b, l1.getLast? = some a → l2.head? = some b → (p a && p b) = false) →
      noRunB p (l1 ++ l2) = true := by
  intro l1
  induction l1 with
  | nil => intro l2 _ h2 _; simpa using h2
  | cons a rest ih =>
    intro l2 h1 h2 hb
    cases hrest : rest with
    | nil =>
      subst hrest
      simp only [List.cons_append, List.nil_append]
      cases hl2 : l2 with
      | nil => exact noRunB_singleton p a
      | cons b bs =>
        apply noRunB_cons_cons_intro
        · exact hb a b (by simp) (by rw [hl2]; rfl)
        · rw [← hl2]; exact h2
    | cons x xs =>
      subst hrest
      rw [List.cons_append]
      have htail : noRunB p ((x :: xs) ++ l2) = true := by
        apply ih l2 (noRunB_tail p a (x :: xs) h1) h2
        intro c d hc hd
        exact hb c d (by rw [List.getLast?_cons_cons]; exact hc) hd
      rw [List.cons_append] at htail
      apply noRunB_cons_cons_intro
      · exact noRunB_pair p a x xs h1
      · exact htail

theorem noRun_length_dropTrailing (p : Char → Bool) :
    ∀ l, noRunB p l = true → l.length ≤ (dropTrailing p l).length + 1 := by
  intro l
  induction l with
  | nil => intro _; simp [dropTrailing]
  | cons a rest ih =>
    intro h
    rw [dropTrailing]
    cases hr : dropTrailing p rest with
    | nil =>
      have hall := dropTrailing_eq_nil p rest hr
      cases hrest : rest with
      | nil =>
        subst hrest
        by_cases hpa : p a = true <;> simp [hpa]
      | cons b bs =>
        subst hrest
        cases hbs : bs with
        | nil =>
          subst hbs
          have hpb : p b = true := hall b (by simp)
          have hpa : p a = false := by
            have hp := noRunB_pair p a b [] h
            rcases Bool.and_eq_false_iff.mp hp with h1 | h1
            · exact h1
            · rw [hpb] at h1; exact absurd h1 (by simp)
          simp [hpa]
        | cons c cs2 =>
          subst hbs
          exfalso
          have hnr := noRunB_tail p a (b :: c :: cs2) h
          have hp := noRunB_pair p b c cs2 hnr
          have hpb : p b = true := hall b (by simp)
          have hpc : p c = true := hall c (by simp)
          rw [hpb, hpc] at hp
          simp at hp
    | cons b bs =>
      have hle := ih (noRunB_tail p a rest h)
      rw [hr] at hle
      simp only [List.length_cons] at hle ⊢
      omega

theorem getLast?_append_ne_nil (l1 l2 : List Char) (h : l2 ≠ []) :
    (l1 ++ l2).getLast? = l2.getLast? := by
  induction l1 with
  | nil => simp
  | cons a rest ih =>
    rw [List.cons_append]
    cases hre : rest ++ l2 with
    | nil =>
      exfalso
      rcases List.append_eq_nil.mp hre with ⟨_, h2⟩
      exact h h2
    | cons b bs =>
      rw [List.getLast?_cons_cons, ← hre, ih]

theorem collapseWs_noRun (l : List Char) : noRunB jsWhitespace (collapseWs l) = true := by
  unfold collapseWs jsTrim jsTrimEnd
  apply noRunB_dropTrailing
  apply noRunB_dropWhile
  exact collapseRunsBy_noRun _ _ _

theorem collapseWs_allSpace (l : List Char) :
    ∀ c ∈ collapseWs l, jsWhitespace c = true → c = ' ' := by
  intro c hc hwc
  unfold collapseWs jsTrim jsTrimEnd at hc
  have h1 : c ∈ (collapseRunsBy jsWhitespace ' ' l).dropWhile jsWhitespace :=
    mem_dropTrailing _ _ c hc
  have h2 : c ∈ collapseRunsBy jsWhitespace ' ' l :=
    (List.dropWhile_sublist _).subset h1
  rcases mem_collapseRunsBy _ _ _ c h2 with h | ⟨_, hp⟩
  · exact h
  · rw [hwc] at hp
    exact absurd hp (by simp)

theorem collapseWs_head (l : List Char) :
    ∀ h, (collapseWs l).head? = some h → jsWhitespace h = false := by
  intro h hh
  unfold collapseWs jsTrim jsTrimEnd at hh
  rcases dropTrailing_head jsWhitespace
      ((collapseRunsBy jsWhitespace ' ' l).dropWhile jsWhitespace) with h0 | h0
  · rw [h0] at hh; simp at hh
  · rw [h0] at hh
    exact dropWhile_head_false jsWhitespace _ h hh

theorem collapseWs_last (l : List Char) :
    ∀ e, (collapseWs l).getLast? = some e → jsWhitespace e = false := by
  intro e he
  unfold collapseWs jsTrim jsTrimEnd at he
  exact dropTrailing_getLast jsWhitespace _ e he

theorem collapseWs_eq_self (l : List Char)
    (hall : ∀ c ∈ l, jsWhitespace c = true → c = ' ')
    (hnr : noRunB jsWhitespace l = true)
    (hhead : ∀ h, l.head? = some h → jsWhitespace h = false)
    (hlast : ∀ e, l.getLast? = some e → jsWhitespace e = false) :
    collapseWs l = l := by
  unfold collapseWs jsTrim jsTrimEnd
  rw [collapseRunsBy_eq_self jsWhitespace ' ' l hall hnr]
  cases hl : l with
  | nil => simp [dropTrailing]
  | cons a rest =>
    have ha : jsWhitespace a = false := hhead a (by rw [hl]; rfl)
    rw [List.dropWhile_cons, if_neg (by simp [ha])]
    cases hgl : (a :: rest).getLast? with
    | none => simp at hgl
    | some e =>
      exact dropTrailing_eq_self jsWhitespace (a :: rest) e hgl (hlast e (hl ▸ hgl))

theorem metaCombined_is_collapseWs (v f : List Char) :
    ∃ w, metaCombined v f = collapseWs w := by
  by_cases hc : (collapseWs v).length < 120 ∧ collapseWs f ≠ []
  · exact ⟨_, by simp only [metaCombined]; rw [if_pos hc]⟩
  · exact ⟨v, by simp only [metaCombined]; rw [if_neg hc]⟩

theorem metaCombined_noRun (v f : List Char) :
    noRunB jsWhitespace (metaCombined v f) = true := by
  obtain ⟨w, hw⟩ := metaCombined_is_collapseWs v f
  rw [hw]
  exact collapseWs_noRun w

set_option maxRecDepth 4096 in
theorem metaPadding_facts :
    noRunB jsWhitespace metaPadding = true ∧
    (∀ c ∈ metaPadding, jsWhitespace c = true → c = ' ') ∧
    noRunB jsWhitespace (' ' :: metaPadding) = true ∧
    (' ' :: metaPadding).getLast? = some '.' ∧
    metaPadding.length = 116 := by decide

theorem collapseWs_pad_concat (c : List Char) (hne : c ≠ [])
    (hall : ∀ x ∈ c, jsWhitespace x = true → x = ' ')
    (hnr : noRunB jsWhitespace c = true)
    (hhead : ∀ h, c.head? = some h → jsWhitespace h = false)
    (hlast : ∀ e, c.getLast? = some e → jsWhitespace e = false) :
    collapseWs (c ++ ' ' :: metaPadding) = c ++ ' ' :: metaPadding := by
  obtain ⟨hpnr, hpall, hpcons, hplast, _⟩ := metaPadding_facts
  apply collapseWs_eq_self
  · intro x hx hwx
    rcases List.mem_append.mp hx with h | h
    · exact hall x h hwx
    · rcases List.mem_cons.mp h with h2 | h2
      · exact h2
      · exact hpall x h2 hwx
  · apply noRunB_append _ c (' ' :: metaPadding) hnr hpcons
    intro a b ha _
    have hwa : jsWhitespace a = false := hlast a ha
    simp [hwa]
  · intro h hh
    cases c with
    | nil => exact absurd rfl hne
    | cons x xs =>
      simp only [List.cons_append, List.head?_cons, Option.some.injEq] at hh
      rw [← hh]
      exact hhead x rfl
  · intro e he
    rw [getLast?_append_ne_nil c (' ' :: metaPadding) (by simp)] at he
    rw [hplast] at he
    simp only [Option.some.injEq] at he
    subst he
    decide

theorem metaPadded_ge (v f : List Char) (h3 : 3 ≤ (metaCombined v f).length) :
    120 ≤ (metaPadded v f).length ∧ noRunB jsWhitespace (metaPadded v f) = true := by
  obtain ⟨w, hw⟩ := metaCombined_is_collapseWs v f
  by_cases hlt : (metaCombined v f).length < 120
  · have hne : metaCombined v f ≠ [] := by
      intro h
      rw [h] at h3
      simp at h3
    have hnr : noRunB jsWhitespace (metaPadded v f) = true := by
      simp only [metaPadded]
      rw [if_pos hlt, if_pos hne]
      exact collapseWs_noRun _
    have heq : metaPadded v f = metaCombined v f ++ ' ' :: metaPadding := by
      simp only [metaPadded]
      rw [if_pos hlt, if_pos hne]
      apply collapseWs_pad_concat _ hne
      · rw [hw]; exact collapseWs_allSpace w
      · rw [hw]; exact collapseWs_noRun w
      · intro h hh; exact collapseWs_head w h (hw ▸ hh)
      · intro e he; exact collapseWs_last w e (hw ▸ he)
    refine ⟨?_, hnr⟩
    rw [heq, List.length_append]
    have hpl := metaPadding_facts.2.2.2.2
    simp only [List.length_cons]
    omega
  · have heq : metaPadded v f = metaCombined v f := by
      simp only [metaPadded]
      rw [if_neg hlt]
    rw [heq]
    exact ⟨by omega, metaCombined_noRun v f⟩

/-! ### Claim C4 -/

set_option maxRecDepth 8192 in
theorem metaPadding_collapse : collapseWs metaPadding = metaPadding := by decide

theorem metaPadded_len_lt (v f : List Char) (h3 : (metaCombined v f).length < 3) :
    (metaPadded v f).length < 120 := by
  obtain ⟨w, hw⟩ := metaCombined_is_collapseWs v f
  have hlt : (metaCombined v f).length < 120 := by omega
  have hpl := metaPadding_facts.2.2.2.2
  by_cases hne : metaCombined v f = []
  · have heq : metaPadded v f = metaPadding := by
      simp only [metaPadded]
      rw [if_pos hlt, if_neg (by simp [hne])]
      exact metaPadding_collapse
    rw [heq]
    omega
  · have heq : metaPadded v f = metaCombined v f ++ ' ' :: metaPadding := by
      simp only [metaPadded]
      rw [if_pos hlt, if_pos hne]
      apply collapseWs_pad_concat _ hne
      · rw [hw]; exact collapseWs_allSpace w
      · rw [hw]; exact collapseWs_noRun w
      · intro h hh; exact collapseWs_head w h (hw ▸ hh)
      · intro e he; exact collapseWs_last w e (hw ▸ he)
    rw [heq, List.length_append]
    simp only [List.length_cons]
    omega

set_option maxRecDepth 8192 in
/-- C4 counterexample: with empty explicit value and empty fallback, the
padding step appends the canned sentence once, which is only 116
characters, so the result is below the claimed 120-character minimum. -/
theorem meta_min_counterexample :
    (buildMetaDescription (cs "") (cs "")).length = 116 ∧
    ¬ 120 ≤ (buildMetaDescription (cs "") (cs "")).length := by decide

/-- C4 (amended): `buildMetaDescription` always returns at most 155
characters, truncating with a trailing ellipsis on overflow; the canned
padding is appended once when the combined value/fallback text is below
120 characters, which reaches the 120-character minimum exactly when the
combined text has at least 3 characters — the padding sentence itself is
only 116 characters plus one separating space, so combined texts of
fewer than 3 characters stay below 120. -/
theorem meta_bounds (v f : List Char) :
    (buildMetaDescription v f).length ≤ 155 ∧
    (3 ≤ (metaCombined v f).length → 120 ≤ (buildMetaDescription v f).length) ∧
    ((metaCombined v f).length < 3 → (buildMetaDescription v f).length < 120) := by
  by_cases htr : (metaPadded v f).length > 155
  · have heq : buildMetaDescription v f = jsTrimEnd ((metaPadded v f).take 154) ++ ['…'] := by
      simp only [buildMetaDescription]
      rw [if_pos htr]
    rw [heq]
    refine ⟨?_, ?_, ?_⟩
    · rw [List.length_append]
      have h1 := dropTrailing_length_le jsWhitespace ((metaPadded v f).take 154)
      have h2 : ((metaPadded v f).take 154).length ≤ 154 := by simp
      unfold jsTrimEnd
      simp only [List.length_singleton]
      omega
    · intro h3
      obtain ⟨hge, hnr⟩ := metaPadded_ge v f h3
      have htk : ((metaPadded v f).take 154).length = 154 := by
        simp only [List.length_take]
        omega
      have hnr2 := noRunB_take jsWhitespace (metaPadded v f) 154 hnr
      have hlen := noRun_length_dropTrailing jsWhitespace _ hnr2
      rw [List.length_append]
      unfold jsTrimEnd
      simp only [List.length_singleton]
      omega
    · intro h3
      exact absurd htr (by have := metaPadded_len_lt v f h3; omega)
  · have heq : buildMetaDescription v f = metaPadded v f := by
      simp only [buildMetaDescription]
      rw [if_neg htr]
    rw [heq]
    exact ⟨by omega, fun h3 => (metaPadded_ge v f h3).1, fun h3 => metaPadded_len_lt v f h3⟩

theorem meta_bounds_witness :
    ((buildMetaDescription (cs "ab") (cs "c")).length ≤ 155 ∧
      120 ≤ (buildMetaDescription (cs "ab") (cs "c")).length) ∧
    (buildMetaDescription (cs "") (cs "x")).length < 120 :=
  ⟨⟨(meta_bounds (cs "ab") (cs "c")).1, (meta_bounds (cs "ab") (cs "c")).2.1 (by decide)⟩,
    (meta_bounds (cs "") (cs "x")).2.2 (by decide)⟩

/-! ### Lemmas about `slugify` and `normalizePath` -/

theorem mem_stripEdgeHyphens (l : List Char) (c : Char) (hc : c ∈ stripEdgeHyphens l) :
    c ∈ l := by
  simp only [stripEdgeHyphens] at hc
  have hsub : ∀ m : List Char, c ∈ (if m.getLast? = some '-' then m.dropLast else m) → c ∈ m := by
    intro m hm
    split at hm
    · exact (List.dropLast_sublist m).subset hm
    · exact hm
  by_cases hh : l.head? = some '-'
  · rw [if_pos hh] at hc
    exact (List.tail_sublist l).subset (hsub l.tail hc)
  · rw [if_neg hh] at hc
    exact hsub l hc

theorem noRunB_dropLast (p : Char → Bool) (l : List Char)
    (h : noRunB p l = true) : noRunB p l.dropLast = true := by
  rw [List.dropLast_eq_take]
  exact noRunB_take p l (l.length - 1) h

theorem noRunB_tail_any (p : Char → Bool) (l : List Char)
    (h : noRunB p l = true) : noRunB p l.tail = true := by
  cases l with
  | nil => exact h
  | cons a rest => exact noRunB_tail p a rest h

theorem stripEdgeHyphens_noRun (l : List Char)
    (h : noRunB (fun c => c == '-') l = true) :
    noRunB (fun c => c == '-') (stripEdgeHyphens l) = true := by
  simp only [stripEdgeHyphens]
  set m := if l.head? = some '-' then l.tail else l with hm
  have h1 : noRunB (fun c => c == '-') m = true := by
    rw [hm]
    split
    · exact noRunB_tail_any _ l h
    · exact h
  split
  · exact noRunB_dropLast _ m h1
  · exact h1

theorem head?_dropLast (l : List Char) (x : Char) (h : l.dropLast.head? = some x) :
    l.head? = some x := by
  cases l with
  | nil => simp at h
  | cons a rest =>
    cases rest with
    | nil => simp at h
    | cons b bs =>
      rw [List.dropLast_cons₂, List.head?_cons] at h
      rw [List.head?_cons]
      exact h

theorem stripEdgeHyphens_head (l : List Char)
    (hnr : noRunB (fun c => c == '-') l = true) :
    (stripEdgeHyphens l).head? ≠ some '-' := by
  simp only [stripEdgeHyphens]
  have hmain : ∀ m : List Char, m.head? ≠ some '-' →
      (if m.getLast? = some '-' then m.dropLast else m).head? ≠ some '-' := by
    intro m hm
    split
    · intro hcon
      exact hm (head?_dropLast m '-' hcon)
    · exact hm
  by_cases hh : l.head? = some '-'
  · rw [if_pos hh]
    apply hmain
    cases l with
    | nil => simp at hh
    | cons a rest =>
      cases rest with
      | nil => simp
      | cons b bs =>
        have hp := noRunB_pair _ a b bs hnr
        intro hcon
        simp only [List.tail_cons, List.head?_cons, Option.some.injEq] at hcon
        simp only [List.head?_cons, Option.some.injEq] at hh
        rw [hcon, hh] at hp
        simp at hp
  · rw [if_neg hh]
    exact hmain l hh

theorem noRun_dropLast_getLast (p : Char → Bool) :
    ∀ l, noRunB p l = true → ∀ e, l.getLast? = some e → p e = true →
      ∀ d, l.dropLast.getLast? = some d → p d = false := by
  intro l
  induction l with
  | nil => intro _ e he; simp at he
  | cons a rest ih =>
    intro hnr e he hpe d hd
    cases hrest : rest with
    | nil =>
      subst hrest
      simp at hd
    | cons b bs =>
      subst hrest
      rw [List.getLast?_cons_cons] at he
      rw [List.dropLast_cons₂] at hd
      cases hdl : (b :: bs).dropLast with
      | nil =>
        have hbs : bs = [] := by
          cases bs with
          | nil => rfl
          | cons x xs => rw [List.dropLast_cons₂] at hdl; simp at hdl
        subst hbs
        rw [hdl] at hd
        simp only [List.getLast?_singleton, Option.some.injEq] at hd
        simp only [List.getLast?_singleton, Option.some.injEq] at he
        have hp := noRunB_pair p a b [] hnr
        rcases Bool.and_eq_false_iff.mp hp with h1 | h1
        · rw [← hd]
          exact h1
        · exfalso
          rw [he] at h1
          rw [hpe] at h1
          simp at h1
      | cons x xs =>
        rw [hdl, List.getLast?_cons_cons, ← hdl] at hd
        exact ih (noRunB_tail p a (b :: bs) hnr) e he hpe d hd

theorem stripEdgeHyphens_last (l : List Char)
    (hnr : noRunB (fun c => c == '-') l = true) :
    (stripEdgeHyphens l).getLast? ≠ some '-' := by
  simp only [stripEdgeHyphens]
  set m := if l.head? = some '-' then l.tail else l with hm
  have h1 : noRunB (fun c => c == '-') m = true := by
    rw [hm]
    split
    · exact noRunB_tail_any _ l hnr
    · exact hnr
  split
  case isTrue hgl =>
    intro hcon
    have := noRun_dropLast_getLast (fun c => c == '-') m h1 '-' hgl (by decide) '-' hcon
    simp at this
  case isFalse hgl => exact hgl

/-! ### Claim C5 -/

/-- C5 counterexample: `normalizePath` does not always return a string with
a single leading slash — the all-slash input `"///"` normalizes to the
empty string (no leading slash at all), and `"//a"` keeps both of its
leading slashes. -/
theorem natural_key_counterexample :
    normalizePath (cs "///") = [] ∧ (normalizePath (cs "///")).head? ≠ some '/' ∧
    normalizePath (cs "//a") = cs "//a" ∧ (normalizePath (cs "//a")).take 2 = cs "//" := by
  decide

/-- C5 (amended): `normalizePath` output never ends in a slash except for
the special output `/`, and it starts with at least one slash whenever the
trimmed input is nonempty, not `/`, and not made of slashes only (inputs'
repeated leading slashes are preserved, and all-slash inputs collapse to
the empty string); and for every title, the `slugify`-derived key contains
no character outside lowercase letters, digits and hyphen, with no
leading, trailing, or adjacent duplicate hyphens. -/
theorem natural_key_shape :
    (∀ p : List Char,
      (normalizePath p = cs "/" ∨ (normalizePath p).getLast? ≠ some '/') ∧
      (jsTrim p ≠ [] → jsTrim p ≠ ['/'] → (∃ c ∈ jsTrim p, (c == '/') = false) →
        (normalizePath p).head? = some '/')) ∧
    (∀ t : List Char,
      (∀ c ∈ slugify t, ('a' ≤ c ∧ c ≤ 'z') ∨ ('0' ≤ c ∧ c ≤ '9') ∨ c = '-') ∧
      (slugify t).head? ≠ some '-' ∧ (slugify t).getLast? ≠ some '-' ∧
      noRunB (fun c => c == '-') (slugify t) = true) := by
  constructor
  · intro p
    constructor
    · simp only [normalizePath]
      split
      · left; rfl
      · right
        intro hlast
        have := dropTrailing_getLast (fun c => c == '/') _ '/' hlast
        simp at this
    · rintro h1 h2 ⟨c, hc, hcs⟩
      simp only [normalizePath]
      rw [if_neg (by push_neg; exact ⟨h1, h2⟩)]
      set W := if (jsTrim p).head? = some '/' then jsTrim p else '/' :: jsTrim p with hW
      have hWh : W.head? = some '/' := by
        rw [hW]
        split
        · assumption
        · rfl
      have hcW : c ∈ W := by
        rw [hW]
        split
        · exact hc
        · exact List.mem_cons_of_mem '/' hc
      have hne : dropTrailing (fun c => c == '/') W ≠ [] :=
        dropTrailing_ne_nil _ W ⟨c, hcW, hcs⟩
      rcases dropTrailing_head (fun c => c == '/') W with h0 | h0
      · exact absurd h0 hne
      · rw [h0, hWh]
  · intro t
    have hslug : slugify t =
        stripEdgeHyphens (collapseRunsBy (fun c => c == '-') '-'
          (collapseRunsBy jsWhitespace '-' (((jsTrim t).map Char.toLower).filter isSlugKeep))) :=
      rfl
    have hnrY : noRunB (fun c => c == '-')
        (collapseRunsBy (fun c => c == '-') '-'
          (collapseRunsBy jsWhitespace '-' (((jsTrim t).map Char.toLower).filter isSlugKeep))) =
          true :=
      collapseRunsBy_noRun _ _ _
    refine ⟨?_, ?_, ?_, ?_⟩
    · intro c hc
      rw [hslug] at hc
      have hY2 := mem_stripEdgeHyphens _ c hc
      rcases mem_collapseRunsBy _ _ _ c hY2 with h | ⟨hZ2, hnd⟩
      · right; right; exact h
      · rcases mem_collapseRunsBy _ _ _ c hZ2 with h | ⟨hF2, hnw⟩
        · right; right; exact h
        · have hkeep : isSlugKeep c = true := (List.mem_filter.mp hF2).2
          unfold isSlugKeep at hkeep
          rw [hnw] at hkeep
          simp only [Bool.or_false, Bool.or_eq_true, Bool.and_eq_true, decide_eq_true_eq] at hkeep
          rcases hkeep with (h | h) | h
          · left; exact h
          · right; left; exact h
          · exfalso
            rw [h] at hnd
            simp at hnd
    · rw [hslug]
      exact stripEdgeHyphens_head _ hnrY
    · rw [hslug]
      exact stripEdgeHyphens_last _ hnrY
    · rw [hslug]
      exact stripEdgeHyphens_noRun _ hnrY

theorem natural_key_shape_witness :
    jsTrim (cs "about/") ≠ [] ∧ jsTrim (cs "about/") ≠ ['/'] ∧
    (∃ c ∈ jsTrim (cs "about/"), (c == '/') = false) ∧
    (normalizePath (cs "about/")).head? = some '/' :=
  ⟨by decide, by decide, by decide,
    (natural_key_shape.1 (cs "about/")).2 (by decide) (by decide) (by decide)⟩

/-! ### Lemmas about the batch runner -/

theorem ensureTagIds_dry_writes (o : Oracle) :
    ∀ ts, (ensureTagIds true o ts).1 = [] := by
  intro ts
  induction ts with
  | nil => rfl
  | cons n rest ih =>
    simp only [ensureTagIds]
    split
    · exact ih
    · split
      · exact ih
      · cases h : o.tagFind (slugify (jsTrim n)) with
        | error e => rfl
        | ok found =>
          simp only [Bool.not_true, Bool.and_false, Bool.false_eq_true, if_false]
          exact ih

theorem ensureTagIds_res (o : Oracle) (dry : Bool) :
    ∀ ts, (ensureTagIds dry o ts).2 = (ensureTagIds true o ts).2 := by
  intro ts
  induction ts with
  | nil => rfl
  | cons n rest ih =>
    simp only [ensureTagIds]
    split
    · exact ih
    · split
      · exact ih
      · cases h : o.tagFind (slugify (jsTrim n)) with
        | error e => rfl
        | ok found =>
          simp only [Bool.not_true, Bool.and_false, Bool.false_eq_true, if_false]
          split
          · exact ih
          · exact ih

theorem processRow_dry_eq (mode : UpsertMode) (o : Oracle) (seen : List (List Char))
    (row : ArticleRow) :
    (processRow true mode o seen row).1 = (processRow false mode o seen row).1 ∧
    (processRow true mode o seen row).2.1 = (processRow false mode o seen row).2.1 ∧
    (processRow true mode o seen row).2.2 = [] := by
  have hw := ensureTagIds_dry_writes o row.tags
  have hres : (ensureTagIds false o row.tags).2 = (ensureTagIds true o row.tags).2 :=
    ensureTagIds_res o false row.tags
  simp only [processRow, hres, hw]
  by_cases h1 : ((jsTrim row.title).isEmpty ||
      (if (jsTrim row.slug).isEmpty = true then slugify (jsTrim row.title)
       else jsTrim row.slug).isEmpty) = true
  · rw [if_pos h1, if_pos h1]
    refine ⟨?_, ?_, ?_⟩ <;> simp
  · rw [if_neg h1, if_neg h1]
    by_cases h2 : seen.contains
        (if (jsTrim row.slug).isEmpty = true then slugify (jsTrim row.title)
         else jsTrim row.slug) = true
    · rw [if_pos h2, if_pos h2]
      refine ⟨?_, ?_, ?_⟩ <;> simp
    · rw [if_neg h2, if_neg h2]
      cases ht : (ensureTagIds true o row.tags).2 with
      | error e => refine ⟨?_, ?_, ?_⟩ <;> simp
      | ok u =>
        by_cases h3 : row.schemaJsonBad = true
        · rw [if_pos h3, if_pos h3]
          refine ⟨?_, ?_, ?_⟩ <;> simp
        · rw [if_neg h3, if_neg h3]
          cases hf : o.find
              (if (jsTrim row.slug).isEmpty = true then slugify (jsTrim row.title)
               else jsTrim row.slug) with
          | error e => refine ⟨?_, ?_, ?_⟩ <;> simp
          | ok oe =>
            cases oe with
            | none => refine ⟨?_, ?_, ?_⟩ <;> simp
            | some e2 =>
              cases mode with
              | skip => refine ⟨?_, ?_, ?_⟩ <;> simp
              | update =>
                cases hg : getEntryId e2 with
                | none => refine ⟨?_, ?_, ?_⟩ <;> simp [hg]
                | some eid =>
                  by_cases h4 : entryIdFalsy eid = true
                  · refine ⟨?_, ?_, ?_⟩ <;> simp [hg, h4]
                  · refine ⟨?_, ?_, ?_⟩ <;> simp [hg, h4]

/-! ### Claim C6 -/

/-- C6: with dry-run enabled, the batch runner issues zero mutating write
calls, while the per-row outcomes (and therefore the
created/updated/skipped/failed counters) are identical to those of a live
run over the same rows against the same remote lookup responses. -/
theorem dry_run_equiv (mode : UpsertMode) (o : Oracle) (rows : List ArticleRow) :
    ∀ seen,
      (runSteps true mode o rows seen).2 = [] ∧
      (runSteps true mode o rows seen).1 = (runSteps false mode o rows seen).1 ∧
      countersOf (runSteps true mode o rows seen).1 =
        countersOf (runSteps false mode o rows seen).1 := by
  induction rows with
  | nil => intro seen; exact ⟨rfl, rfl, rfl⟩
  | cons row rest ih =>
    intro seen
    obtain ⟨h1, h2, h3⟩ := processRow_dry_eq mode o seen row
    obtain ⟨ih1, ih2, _⟩ := ih (processRow true mode o seen row).2.1
    simp only [runSteps]
    refine ⟨?_, ?_, ?_⟩
    · rw [h3, ih1]
      rfl
    · rw [h1, ← h2, ih2]
    · rw [h1, ← h2, ih2]

theorem contains_mem (s : List (List Char)) (x : List Char) :
    s.contains x = true ↔ x ∈ s :=
  List.elem_iff

theorem processRow_seen_eq (dry : Bool) (mode : UpsertMode) (o : Oracle)
    (seen : List (List Char)) (row : ArticleRow) :
    (processRow dry mode o seen row).2.1 =
      (if ((jsTrim row.title).isEmpty || (rowSlug row).isEmpty) = true then seen
       else if seen.contains (rowSlug row) = true then seen
       else rowSlug row :: seen) := by
  have hsv : (if (jsTrim row.slug).isEmpty = true then slugify (jsTrim row.title)
      else jsTrim row.slug) = rowSlug row := by
    simp only [rowSlug, List.isEmpty_iff]
  simp only [processRow, hsv]
  by_cases h1 : ((jsTrim row.title).isEmpty || (rowSlug row).isEmpty) = true
  · rw [if_pos h1, if_pos h1]
  · rw [if_neg h1, if_neg h1]
    by_cases h2 : seen.contains (rowSlug row) = true
    · rw [if_pos h2, if_pos h2]
    · rw [if_neg h2, if_neg h2]
      cases ht : (ensureTagIds dry o row.tags).2 with
      | error e => rfl
      | ok u =>
        by_cases h3 : row.schemaJsonBad = true
        · rw [if_pos h3]
        · rw [if_neg h3]
          cases hf : o.find (rowSlug row) with
          | error e => rfl
          | ok oe =>
            cases oe with
            | none => rfl
            | some e2 =>
              cases mode with
              | skip => rfl
              | update =>
                cases hg : getEntryId e2 with
                | none => simp [hg]
                | some eid =>
                  by_cases h4 : entryIdFalsy eid = true
                  · simp [hg, h4]
                  · simp [hg, h4]

theorem processRow_failed_of_dup (dry : Bool) (mode : UpsertMode) (o : Oracle)
    (seen : List (List Char)) (row : ArticleRow) (hmem : rowSlug row ∈ seen) :
    (processRow dry mode o seen row).1 = .failed := by
  have hsv : (if (jsTrim row.slug).isEmpty = true then slugify (jsTrim row.title)
      else jsTrim row.slug) = rowSlug row := by
    simp only [rowSlug, List.isEmpty_iff]
  simp only [processRow, hsv]
  by_cases h1 : ((jsTrim row.title).isEmpty || (rowSlug row).isEmpty) = true
  · rw [if_pos h1]
  · rw [if_neg h1, if_pos ((contains_mem seen (rowSlug row)).mpr hmem)]

theorem processRow_seen_mem_self (dry : Bool) (mode : UpsertMode) (o : Oracle)
    (seen : List (List Char)) (row : ArticleRow) (hv : validRow row) :
    rowSlug row ∈ (processRow dry mode o seen row).2.1 := by
  obtain ⟨ht, hs⟩ := hv
  rw [processRow_seen_eq]
  rw [if_neg (by simp [List.isEmpty_iff, ht, hs])]
  split
  · exact (contains_mem seen (rowSlug row)).mp ‹_›
  · exact List.mem_cons_self _ _

theorem processRow_seen_mono (dry : Bool) (mode : UpsertMode) (o : Oracle)
    (seen : List (List Char)) (row : ArticleRow) (x : List Char) (hx : x ∈ seen) :
    x ∈ (processRow dry mode o seen row).2.1 := by
  rw [processRow_seen_eq]
  split
  · exact hx
  · split
    · exact hx
    · exact List.mem_cons_of_mem _ hx

theorem seenAfter_mono (dry : Bool) (mode : UpsertMode) (o : Oracle) :
    ∀ (rows : List ArticleRow) (seen : List (List Char)) (x : List Char),
      x ∈ seen → x ∈ seenAfter dry mode o rows seen := by
  intro rows
  induction rows with
  | nil => intro seen x hx; exact hx
  | cons row rest ih =>
    intro seen x hx
    exact ih _ x (processRow_seen_mono dry mode o seen row x hx)

theorem seenAfter_append (dry : Bool) (mode : UpsertMode) (o : Oracle) :
    ∀ (xs ys : List ArticleRow) (seen : List (List Char)),
      seenAfter dry mode o (xs ++ ys) seen =
        seenAfter dry mode o ys (seenAfter dry mode o xs seen) := by
  intro xs
  induction xs with
  | nil => intro ys seen; rfl
  | cons row rest ih =>
    intro ys seen
    simp only [List.cons_append, seenAfter]
    exact ih ys _

theorem runSteps_append (dry : Bool) (mode : UpsertMode) (o : Oracle) :
    ∀ (xs ys : List ArticleRow) (seen : List (List Char)),
      (runSteps dry mode o (xs ++ ys) seen).1 =
        (runSteps dry mode o xs seen).1 ++
          (runSteps dry mode o ys (seenAfter dry mode o xs seen)).1 := by
  intro xs
  induction xs with
  | nil => intro ys seen; rfl
  | cons row rest ih =>
    intro ys seen
    simp only [List.cons_append, runSteps, seenAfter, List.append_eq]
    rw [ih]

theorem runSteps_length (dry : Bool) (mode : UpsertMode) (o : Oracle) :
    ∀ (rows : List ArticleRow) (seen : List (List Char)),
      (runSteps dry mode o rows seen).1.length = rows.length := by
  intro rows
  induction rows with
  | nil => intro seen; rfl
  | cons row rest ih =>
    intro seen
    simp only [runSteps, List.length_cons]
    rw [ih]

/-! ### Claim C7 -/

/-- C7 counterexample: two rows both resolving to slug `a`, where the first
row fails the required-fields validation (empty title).  The first row's
slug is then never registered in `seenSlugs`, so the second occurrence of
the duplicate key is not marked failed — it is created. -/
theorem dup_counterexample :
    rowSlug ⟨cs "", cs "a", [], false⟩ = rowSlug ⟨cs "T", cs "a", [], false⟩ ∧
    (runSteps false .update oracleEmpty
        [⟨cs "", cs "a", [], false⟩, ⟨cs "T", cs "a", [], false⟩] []).1 =
      [.failed, .created] := by
  decide

/-- C7 (amended): when two rows of a batch resolve to the same natural key
and the first of them passes the required-fields validation, the second
occurrence is marked failed, while the outcomes of all rows up to and
including the first occurrence are exactly those of the batch without the
later rows. -/
theorem dup_second_fails (dry : Bool) (mode : UpsertMode) (o : Oracle)
    (pre mid post : List ArticleRow) (r1 r2 : ArticleRow)
    (h1 : validRow r1) (hk : rowSlug r2 = rowSlug r1) :
    (runSteps dry mode o (pre ++ r1 :: (mid ++ r2 :: post)) []).1[pre.length + 1 + mid.length]? =
      some .failed ∧
    (runSteps dry mode o (pre ++ r1 :: (mid ++ r2 :: post)) []).1.take
        (pre.length + 1 + mid.length) =
      (runSteps dry mode o (pre ++ r1 :: mid) []).1 := by
  have hrows : pre ++ r1 :: (mid ++ r2 :: post) = (pre ++ r1 :: mid) ++ r2 :: post := by
    simp
  rw [hrows, runSteps_append]
  have hlen : (runSteps dry mode o (pre ++ r1 :: mid) []).1.length =
      pre.length + 1 + mid.length := by
    rw [runSteps_length]
    simp only [List.length_append, List.length_cons]
    omega
  have hmem : rowSlug r2 ∈ seenAfter dry mode o (pre ++ r1 :: mid) [] := by
    rw [hk, seenAfter_append]
    have h0 := processRow_seen_mem_self dry mode o (seenAfter dry mode o pre []) r1 h1
    simp only [seenAfter]
    exact seenAfter_mono dry mode o mid _ _ h0
  constructor
  · rw [List.getElem?_append_right (by omega)]
    rw [hlen]
    simp only [Nat.sub_self]
    simp only [runSteps]
    rw [List.getElem?_cons_zero]
    rw [processRow_failed_of_dup dry mode o _ r2 hmem]
  · rw [← hlen, List.take_left]

theorem dup_second_fails_witness :
    validRow ⟨cs "t", cs "a", [], false⟩ ∧
    rowSlug ⟨cs "u", cs "a", [], false⟩ = rowSlug ⟨cs "t", cs "a", [], false⟩ ∧
    ((runSteps false .update oracleEmpty
        [⟨cs "t", cs "a", [], false⟩, ⟨cs "u", cs "a", [], false⟩] []).1[1]? =
        some .failed ∧
      (runSteps false .update oracleEmpty
          [⟨cs "t", cs "a", [], false⟩, ⟨cs "u", cs "a", [], false⟩] []).1.take 1 =
        (runSteps false .update oracleEmpty [⟨cs "t", cs "a", [], false⟩] []).1) :=
  ⟨⟨by decide, by decide⟩, by decide,
    dup_second_fails false .update oracleEmpty [] [] []
      ⟨cs "t", cs "a", [], false⟩ ⟨cs "u", cs "a", [], false⟩ ⟨by decide, by decide⟩ (by decide)⟩

/-! ### Claim C9 -/

theorem countersOf_counts (outs : List Outcome) :
    countersOf outs =
      ⟨outs.count .created, outs.count .updated, outs.count .skipped, outs.count .failed⟩ := by
  induction outs with
  | nil => rfl
  | cons op rest ih =>
    simp only [countersOf, ih]
    cases op <;> simp [bump, List.count_cons]

theorem countersOf_sum (outs : List Outcome) :
    (countersOf outs).created + (countersOf outs).updated + (countersOf outs).skipped +
      (countersOf outs).failed = outs.length := by
  induction outs with
  | nil => rfl
  | cons op rest ih =>
    simp only [countersOf, List.length_cons]
    cases op <;> simp only [bump] <;> omega

/-- C9: the batch runner gives every row exactly one terminal outcome —
per-row errors become a `failed` outcome and never abort the batch, so the
outcome list has one entry per input row, each counter of the final
summary counts exactly the rows with that outcome, and the four counters
always sum to the number of rows. -/
theorem batch_isolation (dry : Bool) (mode : UpsertMode) (o : Oracle)
    (rows : List ArticleRow) (seen : List (List Char)) :
    (runSteps dry mode o rows seen).1.length = rows.length ∧
    countersOf (runSteps dry mode o rows seen).1 =
      ⟨(runSteps dry mode o rows seen).1.count .created,
       (runSteps dry mode o rows seen).1.count .updated,
       (runSteps dry mode o rows seen).1.count .skipped,
       (runSteps dry mode o rows seen).1.count .failed⟩ ∧
    (countersOf (runSteps dry mode o rows seen).1).created +
      (countersOf (runSteps dry mode o rows seen).1).updated +
      (countersOf (runSteps dry mode o rows seen).1).skipped +
      (countersOf (runSteps dry mode o rows seen).1).failed = rows.length := by
  refine ⟨runSteps_length dry mode o rows seen, countersOf_counts _, ?_⟩
  rw [countersOf_sum, runSteps_length]

/-! ### Lemmas about the tabular parser -/

theorem parity_succ (n : Nat) : ((n + 1) % 2 == 1) = !(n % 2 == 1) := by
  rcases Nat.mod_two_eq_zero_or_one n with h | h
  · have h2 : (n + 1) % 2 = 1 := by omega
    rw [h, h2]
    decide
  · have h2 : (n + 1) % 2 = 0 := by omega
    rw [h, h2]
    decide

theorem csvChars_quotes : ∀ (st : CsvState) (l : List Char),
    (csvChars st l).inQuotes = (st.inQuotes).xor (l.count '"' % 2 == 1) := by
  intro st l
  induction st, l using csvChars.induct <;>
    simp_all [csvChars, csvAddChar, csvPushCell, csvPushRow, csvBumpLine,
      List.count_cons, parity_succ, Bool.xor_not, Bool.not_xor]

theorem mapDataRows_length (headers : List (List Char)) :
    ∀ (cells : List (List (List Char))) (lns : List Nat) (i : Nat),
      (mapDataRows headers cells lns i).length = cells.countP csvHasValue := by
  intro cells
  induction cells with
  | nil => intro lns i; rfl
  | cons cs0 rest ih =>
    intro lns i
    simp only [mapDataRows, List.countP_cons]
    by_cases h : csvHasValue cs0 = true
    · rw [if_pos h, if_pos h]
      simp only [List.length_cons]
      rw [ih]
    · rw [if_neg h, if_neg (by simpa using h)]
      rw [ih]
      omega

/-! ### Claim C8 -/

/-- C8 counterexample: the redirects importer's `parseCsv` (the cited
`src/unnamed/part_005` lines 84-102) does not satisfy the claim — on an
input ending inside an open quoted field it parses without error where
the article importer's scanner throws, and it keeps a data row whose
cells are all empty after trimming (`,,`) which the scanner drops. -/
theorem parseCsv_divergence_counterexample :
    parseCsv (cs "a,b\n\"x,y") = Except.error () ∧
    parseCsvRedirects (cs "a,b\n\"x,y") = [⟨[(cs "a", cs "x,y"), (cs "b", cs "")], 2⟩] ∧
    parseCsvRedirects (cs "a,b\n,,") = [⟨[(cs "a", cs ""), (cs "b", cs "")], 2⟩] ∧
    parseCsv (cs "a,b\n,,") = Except.ok [] :=
  ⟨rfl, rfl, rfl, rfl⟩

/-- C8 (amended): the article/page importers' `parseCsv` — the
character-level scanner — throws its unmatched-quote error exactly when
the input (after BOM stripping) ends inside an open quoted field,
equivalently when it contains an odd number of quote characters with
escaped quote pairs counting as two; on every other input it is total,
returning one row mapping per data record that has a non-blank cell,
with all-blank records dropped silently.  (The redirects importer's
line-based `parseCsv` behaves differently: it never throws and keeps
all-blank-cell rows.) -/
theorem parseCsv_spec (text : List Char) :
    (parseCsv text = Except.error () ↔ Odd ((stripBom text).count '"')) ∧
    (¬ Odd ((stripBom text).count '"') →
      parseCsv text = Except.ok (csvRowsOf text) ∧
      (csvRowsOf text).length = csvDataCount text) := by
  have hq : (csvChars csvInit (stripBom text)).inQuotes =
      ((stripBom text).count '"' % 2 == 1) := by
    rw [csvChars_quotes]
    simp [csvInit]
  constructor
  · constructor
    · intro h
      unfold parseCsv at h
      by_cases hin : (csvChars csvInit (stripBom text)).inQuotes = true
      · rw [hq] at hin
        rw [Nat.odd_iff]
        simpa using hin
      · rw [if_neg hin] at h
        simp at h
    · intro hodd
      unfold parseCsv
      rw [Nat.odd_iff] at hodd
      rw [if_pos (by rw [hq]; simp [hodd])]
  · intro hodd
    have hin : ¬ (csvChars csvInit (stripBom text)).inQuotes = true := by
      rw [Nat.odd_iff] at hodd
      rw [hq]
      simpa using hodd
    refine ⟨by unfold parseCsv; rw [if_neg hin], ?_⟩
    simp only [csvRowsOf, csvDataCount]
    split
    case isTrue hlt =>
      rw [List.drop_eq_nil_of_le (by omega)]
      rfl
    case isFalse hge =>
      exact mapDataRows_length _ _ _ _

theorem parseCsv_spec_witness :
    ¬ Odd ((stripBom (cs "a,b\nc,d")).count '"') ∧
    (parseCsv (cs "a,b\nc,d") = Except.ok (csvRowsOf (cs "a,b\nc,d")) ∧
      (csvRowsOf (cs "a,b\nc,d")).length = csvDataCount (cs "a,b\nc,d")) :=
  ⟨by decide, (parseCsv_spec (cs "a,b\nc,d")).2 (by decide)⟩
